import Mathlib

/-!
# scriptcut: a shallow embedding of `main.go`

`main.go` is one linear script: load the dotfile, check the arguments, extract the
audio with the media tool, upload it, poll until the upload is active, ask the model
for time ranges, parse them, cut every range, concatenate the cuts.

Everything the script cannot decide by itself (the exit status of the media tool, the
answers of the remote service, the result of a filesystem call) is a field of `World`.
What the script does to its surroundings is recorded in `State`.
-/

namespace Scriptcut

/-! ## Strings -/

/-- The function `strings.Split(s, sep)` of the Go standard library, after its
documentation, for a separator of one character and on the characters of `s`: the
pieces between the separators, in order. There is always at least one piece, and `n`
separators give `n + 1` pieces, empty ones included. -/
def splitChars (sep : Char) : List Char → List (List Char)
  | [] => [[]]
  | c :: cs =>
    if c = sep then [] :: splitChars sep cs
    else
      match splitChars sep cs with
      | [] => [[c]]
      | t :: ts => (c :: t) :: ts

/-- The call `strings.Split(s, sep)` with `sep` a single character, as in lines 130
and 131. -/
def Split (s : String) (sep : Char) : List String :=
  (splitChars sep s.data).map String.mk

/-! ## The parsed ranges (`main.go` 119-139) -/

/-- One element of `cuts`: the anonymous struct with fields `Start` and `End`. -/
structure Cut where
  Start : String
  End : String
  deriving DecidableEq, Repr

/-- The ways the script panics. A panic unwinds `main`, so deferred calls run. -/
inductive Panic where
  /-- The `panic(err)` after `godotenv.Load()` returned `err` (line 24). -/
  | dotenv (err : String)
  /-- The panic after `json.Unmarshal` failed (line 124). -/
  | invalidOutput
  /-- The Go runtime error `index out of range [index] with length len`. -/
  | indexOutOfRange (index len : Nat)
  deriving DecidableEq, Repr

/-- The loop of lines 130-139 over the tokens that are still to be read; `cuts` is the
slice built so far. `cutArgs[0]` and `cutArgs[1]` are bounds-checked by the runtime. -/
def parseLoop : List String → List Cut → Except Panic (List Cut)
  | [], cuts => .ok cuts
  | cut :: rest, cuts =>
    match Split cut '-' with
    | [] => .error (.indexOutOfRange 0 0)
    | [_] => .error (.indexOutOfRange 1 1)
    | start :: stop :: _ => parseLoop rest (cuts ++ [{ Start := start, End := stop }])

/-- Lines 126-139: `cuts` starts as the nil slice and the loop runs over
`strings.Split(outputJson.Stamps, ",")`. -/
def parseStamps (stamps : String) : Except Panic (List Cut) :=
  parseLoop (Split stamps ',') []

/-! ## The surroundings of the script -/

/-- The `genai.FileState` values of an uploaded file. -/
inductive FileState where
  | FileStateUnspecified
  | FileStateProcessing
  | FileStateActive
  | FileStateFailed
  deriving DecidableEq, Repr

/-- Everything the script asks of its surroundings. A call of the media tool or of the
manifest writer is identified by how many such calls came before it and by its
arguments, so the answers may differ from call to call. -/
structure World where
  /-- The paths on disk when the process starts. -/
  disk : List String
  /-- The error returned by `godotenv.Load()`, if any. -/
  dotenv : Option String
  /-- Whether the media tool exits with status zero: `ffmpeg n argv` is the call
  made after `n` earlier ones. -/
  ffmpeg : Nat → List String → Bool
  /-- The error returned by `genai.NewClient`, if any. -/
  newClient : Option String
  /-- The answer of `client.Files.UploadFromPath`: the state of the new file. -/
  upload : Except String FileState
  /-- The answer of the `n`-th `client.Files.Get` (counted from zero). -/
  get : Nat → Except String FileState
  /-- The answer of `client.Models.GenerateContent` to a user prompt: the text. -/
  generate : String → Except String String
  /-- The `stamps` field `json.Unmarshal` decodes from a text, `none` on an error. -/
  unmarshal : String → Option String
  /-- Whether `os.Create("cut_files.txt")` succeeds. -/
  create : Bool
  /-- Whether `os.Mkdir(".cuts", os.ModeDir)` succeeds (its error is dropped). -/
  mkdir : Bool
  /-- Whether the `n`-th `fmt.Fprintf` to the manifest succeeds, given its text. -/
  fprintf : Nat → String → Bool

/-- One run of the media tool: the command line and whether it exited with zero. -/
structure ToolCall where
  argv : List String
  ok : Bool
  deriving DecidableEq, Repr

/-- The requests made to the remote service. -/
inductive ApiCall where
  | newClient
  | upload
  | get
  | generate
  | delete
  deriving DecidableEq, Repr

/-- What the script has done so far. -/
structure State where
  /-- The paths on disk. -/
  fs : List String
  /-- The runs of the media tool, oldest first. -/
  tool : List ToolCall
  /-- The requests to the remote service, oldest first. -/
  api : List ApiCall
  /-- The text written to the manifest `cut_files.txt`. -/
  manifest : String
  /-- The seconds spent in `time.Sleep`. -/
  slept : Nat
  deriving DecidableEq, Repr

/-- The state of a process that has done nothing yet. -/
def State.start (disk : List String) : State :=
  { fs := disk, tool := [], api := [], manifest := "", slept := 0 }

/-- The `log.Fatal*` calls of the script. Each of them ends in `os.Exit(1)`: the
process stops there and deferred calls do not run. -/
inductive Fatal where
  /-- Line 30, the usage message. -/
  | usage
  /-- Line 40, `ffmpeg conversion failed`. -/
  | conversion
  /-- Lines 54, 66, 78 and 115: an error of the remote service. -/
  | remote (err : String)
  /-- Line 144, `failed to create list file`. -/
  | createList
  /-- Line 164, `cut i failed`. -/
  | cut (i : Nat)
  /-- Line 169, `failed writing to list file`. -/
  | writeList
  /-- Line 186, `ffmpeg concat failed`. -/
  | concat
  deriving DecidableEq, Repr

/-- How a run ends, or that it has not ended yet. -/
inductive Exit where
  /-- The function `main` returned: exit status 0, deferred calls have run. -/
  | success
  /-- The process ended in `log.Fatal*`: exit status 1, deferred calls skipped. -/
  | fatal (f : Fatal)
  /-- The process ended in a panic: exit status 2, deferred calls have run. -/
  | panicked (p : Panic)
  /-- The readiness loop is still running when the step budget is used up. -/
  | polling
  deriving DecidableEq, Repr

/-! ## Deferred calls -/

/-- The four `defer` statements of `main`. -/
inductive Deferred where
  /-- Line 44, `os.Remove("audio.mp3")`. -/
  | removeAudio
  /-- Line 68, `client.Files.Delete(ctx, file.Name, nil)`. -/
  | deleteUpload
  /-- Lines 146-149, close the manifest and `os.Remove` it. -/
  | removeList
  /-- Lines 172-174, `os.RemoveAll(".cuts/")`. -/
  | removeCuts
  deriving DecidableEq, Repr

/-- The path `os.Remove` deletes is gone afterwards. -/
def osRemove (path : String) (fs : List String) : List String :=
  fs.filter (fun p => p ≠ path)

/-- After `os.RemoveAll(dir ++ "/")` the directory `dir` and all below it are gone. -/
def osRemoveAll (dir : String) (fs : List String) : List String :=
  fs.filter (fun p => p ≠ dir ∧ ¬ (dir.data ++ [ '/']) <+: p.data)

/-- The effect of one deferred call. -/
def Deferred.run : Deferred → State → State
  | .removeAudio, s => { s with fs := osRemove "audio.mp3" s.fs }
  | .deleteUpload, s => { s with api := s.api ++ [ApiCall.delete] }
  | .removeList, s => { s with fs := osRemove "cut_files.txt" s.fs }
  | .removeCuts, s => { s with fs := osRemoveAll ".cuts" s.fs }

/-- The deferred calls run when `main` returns or panics, last registered first;
`ds` lists them in that order. -/
def runDeferred : List Deferred → State → State
  | [], s => s
  | d :: ds, s => runDeferred ds (d.run s)

/-! ## The cuts and their concatenation (`main.go` 141-187) -/

/-- Line 154: `fmt.Sprintf(".cuts/cut_%d.mp4", i)`. -/
def outputPath (i : Nat) : String :=
  ".cuts/cut_" ++ Nat.repr i ++ ".mp4"

/-- Lines 155-162: the command line of the cut with index `i`. -/
def cutCmd (inputFile : String) (c : Cut) (i : Nat) : List String :=
  ["ffmpeg", "-ss", c.Start, "-to", c.End, "-i", inputFile, "-c", "copy", outputPath i]

/-- Line 168: the manifest line of the cut with index `i`. -/
def manifestLine (i : Nat) : String :=
  "file '" ++ outputPath i ++ "'\n"

/-- Record a run of the media tool; when it exits with zero its output file exists. -/
def State.ran (s : State) (argv : List String) (ok : Bool) (out : String) : State :=
  { s with tool := s.tool ++ [{ argv := argv, ok := ok }],
           fs := if ok then s.fs.insert out else s.fs }

/-- The loop of lines 151-171 over the ranges that are still to be cut, `i` being the
index of the first of them. It ends with `none` when the slice is used up and with the
fatal error otherwise. -/
def cutLoop (w : World) (inputFile : String) : List Cut → Nat → State → State × Option Fatal
  | [], _, s => (s, none)
  | c :: rest, i, s =>
    let ok := w.ffmpeg s.tool.length (cutCmd inputFile c i)
    let s1 := s.ran (cutCmd inputFile c i) ok (outputPath i)
    if ok then
      if w.fprintf i (manifestLine i) then
        cutLoop w inputFile rest (i + 1) { s1 with manifest := s1.manifest ++ manifestLine i }
      else (s1, some Fatal.writeList)
    else (s1, some (Fatal.cut i))

/-- Lines 177-184: the command line of the concatenation. -/
def concatCmd : List String :=
  ["ffmpeg", "-f", "concat", "-safe", "0", "-i", "cut_files.txt", "-c", "copy", "output.mp4"]

/-- Lines 141-187: create the manifest and the scratch directory, cut every range,
concatenate. `ds` holds the deferred calls registered before line 141. -/
def cutStage (w : World) (inputFile : String) (cuts : List Cut) (ds : List Deferred)
    (s : State) : State × Exit :=
  if w.create then
    let s1 := { s with fs := s.fs.insert "cut_files.txt", manifest := "" }
    let s2 := if w.mkdir then { s1 with fs := s1.fs.insert ".cuts" } else s1
    match cutLoop w inputFile cuts 0 s2 with
    | (s3, some f) => (s3, Exit.fatal f)
    | (s3, none) =>
      let ok := w.ffmpeg s3.tool.length concatCmd
      let s4 := s3.ran concatCmd ok "output.mp4"
      if ok then (runDeferred (Deferred.removeCuts :: Deferred.removeList :: ds) s4, Exit.success)
      else (s4, Exit.fatal Fatal.concat)
  else (s, Exit.fatal Fatal.createList)

/-! ## The readiness loop (`main.go` 70-80) -/

/-- The loop of lines 71-80. `state` is `file.State`, `n` counts the `Files.Get` calls
made so far, `fuel` bounds the number of iterations. The result is the state in which
the loop was left, or the fatal error, or `Exit.polling` when `fuel` iterations were
not enough. -/
def pollLoop (w : World) : Nat → Nat → FileState → State → State × Except Exit FileState
  | fuel, n, state, s =>
    if state = FileState.FileStateUnspecified ∨ state ≠ FileState.FileStateActive then
      match fuel with
      | 0 => (s, .error Exit.polling)
      | fuel + 1 =>
        let s1 := { s with slept := s.slept + 5, api := s.api ++ [ApiCall.get] }
        match w.get n with
        | .error err => (s1, .error (Exit.fatal (Fatal.remote err)))
        | .ok state1 => pollLoop w fuel (n + 1) state1 s1
    else (s, .ok state)

/-! ## The script -/

/-- Lines 36-44: the command line of the audio extraction. -/
def extractCmd (inputFile : String) : List String :=
  ["ffmpeg", "-i", inputFile, "-q:a", "0", "-map", "a", "audio.mp3"]

/-- Lines 82-187, entered once the upload is active. -/
def promptStage (w : World) (inputFile prompt : String) (ds : List Deferred) (s : State) :
    State × Exit :=
  let s1 := { s with api := s.api ++ [ApiCall.generate] }
  match w.generate prompt with
  | .error err => (s1, Exit.fatal (Fatal.remote err))
  | .ok text =>
    match w.unmarshal text with
    | none => (runDeferred ds s1, Exit.panicked Panic.invalidOutput)
    | some stamps =>
      match parseStamps stamps with
      | .error p => (runDeferred ds s1, Exit.panicked p)
      | .ok cuts => cutStage w inputFile cuts ds s1

/-- The function `main` on the argument vector `args` (`os.Args`, the program name
first), with `fuel` iterations allowed to the readiness loop. -/
def main (fuel : Nat) (w : World) (args : List String) : State × Exit :=
  let s0 := State.start w.disk
  match w.dotenv with
  | some err => (s0, Exit.panicked (Panic.dotenv err))
  | none =>
    if args.length < 3 then (s0, Exit.fatal Fatal.usage)
    else
      let inputFile := args.getD 1 ""
      let prompt := " ".intercalate (args.drop 2)
      let ok := w.ffmpeg s0.tool.length (extractCmd inputFile)
      let s1 := s0.ran (extractCmd inputFile) ok "audio.mp3"
      if ok then
        let s2 := { s1 with api := s1.api ++ [ApiCall.newClient] }
        match w.newClient with
        | some err => (s2, Exit.fatal (Fatal.remote err))
        | none =>
          let s3 := { s2 with api := s2.api ++ [ApiCall.upload] }
          match w.upload with
          | .error err => (s3, Exit.fatal (Fatal.remote err))
          | .ok state =>
            let ds := [Deferred.deleteUpload, Deferred.removeAudio]
            match pollLoop w fuel 0 state s3 with
            | (s4, .error e) => (s4, e)
            | (s4, .ok _) => promptStage w inputFile prompt ds s4
      else (s1, Exit.fatal Fatal.conversion)

/-! ## Definitions used to state the properties -/

/-- The pair the loop appends for a token: its first two pieces. -/
def firstTwo (cut : String) : Cut :=
  { Start := (Split cut '-').getD 0 "", End := (Split cut '-').getD 1 "" }

/-- The stamps string `"S1-E1,S2-E2,...,Sn-En"` of a list of pairs. -/
def stampsOf (pairs : List (String × String)) : String :=
  ",".intercalate (pairs.map (fun p => p.1 ++ "-" ++ p.2))

/-- A world for worked examples: an empty working directory, the dotfile loads, the
upload is active after one poll, the model answers with `stamps`, the `n`-th run of the
media tool succeeds when `toolOk n` and the `n`-th manifest write when `writeOk n`. -/
def exampleWorld (stamps : String) (toolOk writeOk : Nat → Bool) : World :=
  { disk := []
    dotenv := none
    ffmpeg := fun n _ => toolOk n
    newClient := none
    upload := .ok FileState.FileStateProcessing
    get := fun _ => .ok FileState.FileStateActive
    generate := fun _ => .ok "response"
    unmarshal := fun _ => some stamps
    create := true
    mkdir := true
    fprintf := fun n _ => writeOk n }

/-- The number a string of decimal digits stands for. -/
def decimalValue (l : List Char) : Nat :=
  l.foldl (fun a c => 10 * a + (c.toNat - 48)) 0

/-- The runs of the media tool for the cuts `cuts`, the first of them having index `i`,
when all of them succeed. -/
def okCalls (inputFile : String) (cuts : List Cut) (i : Nat) : List ToolCall :=
  (cuts.enumFrom i).map (fun p => { argv := cutCmd inputFile p.2 p.1, ok := true })

/-- The manifest lines of the `m` cuts from index `i` on, one after the other. -/
def manifestLines (i m : Nat) : String :=
  String.join ((List.range' i m).map manifestLine)

/-- A world in which the upload never becomes active: every poll answers
`FileStateProcessing`. -/
def stuckWorld : World :=
  { exampleWorld "00:00:00-00:00:05" (fun _ => true) (fun _ => true) with
    get := fun _ => .ok FileState.FileStateProcessing }

/-! ## Facts about `strings.Split` -/

theorem splitChars_ne_nil (sep : Char) (l : List Char) : splitChars sep l ≠ [] := by
  cases l with
  | nil => simp [splitChars]
  | cons c cs =>
    by_cases h : c = sep
    · simp [splitChars, h]
    · cases hs : splitChars sep cs <;> simp [splitChars, h, hs]

theorem splitChars_length (sep : Char) (l : List Char) :
    (splitChars sep l).length = l.count sep + 1 := by
  induction l with
  | nil => simp [splitChars]
  | cons c cs ih =>
    by_cases h : c = sep
    · subst h
      simp [splitChars, ih]
    · have hne := splitChars_ne_nil sep cs
      cases hs : splitChars sep cs with
      | nil => exact absurd hs hne
      | cons t ts =>
        rw [hs] at ih
        simp [splitChars, h, hs, List.count_cons] at ih ⊢
        omega

theorem splitChars_of_not_mem (sep : Char) (l : List Char) (h : sep ∉ l) :
    splitChars sep l = [l] := by
  induction l with
  | nil => simp [splitChars]
  | cons c cs ih =>
    simp only [List.mem_cons, not_or] at h
    have hc : c ≠ sep := fun e => h.1 e.symm
    simp [splitChars, hc, ih h.2]

theorem splitChars_append_sep (sep : Char) (a b : List Char) (h : sep ∉ a) :
    splitChars sep (a ++ sep :: b) = a :: splitChars sep b := by
  induction a with
  | nil => simp [splitChars]
  | cons c cs ih =>
    simp only [List.mem_cons, not_or] at h
    have hc : c ≠ sep := fun e => h.1 e.symm
    simp [splitChars, hc, ih h.2]

/-- No piece holds the separator. -/
theorem splitChars_pieces (sep : Char) (l : List Char) :
    ∀ t ∈ splitChars sep l, sep ∉ t := by
  induction l with
  | nil => simp [splitChars]
  | cons c cs ih =>
    by_cases h : c = sep
    · subst h
      intro t ht
      simp only [splitChars, if_true, List.mem_cons] at ht
      rcases ht with rfl | ht
      · simp
      · exact ih t ht
    · cases hs : splitChars sep cs with
      | nil => exact absurd hs (splitChars_ne_nil sep cs)
      | cons u us =>
        rw [hs] at ih
        intro t ht
        simp only [splitChars, h, if_false, hs, List.mem_cons] at ht
        rcases ht with rfl | ht
        · have hu := ih u (List.mem_cons_self _ _)
          simp only [List.mem_cons, not_or]
          exact ⟨fun e => h e.symm, hu⟩
        · exact ih t (List.mem_cons_of_mem _ ht)

/-- Putting the separator back between the pieces gives the string back. -/
theorem splitChars_intercalate (sep : Char) (l : List Char) :
    List.intercalate [sep] (splitChars sep l) = l := by
  induction l with
  | nil => simp [splitChars, List.intercalate]
  | cons c cs ih =>
    by_cases h : c = sep
    · subst h
      cases hs : splitChars c cs with
      | nil => exact absurd hs (splitChars_ne_nil c cs)
      | cons u us =>
        rw [hs] at ih
        simp only [splitChars, if_true, hs]
        simp only [List.intercalate, List.intersperse, List.flatten, List.nil_append,
          List.singleton_append] at ih ⊢
        rw [ih]
    · cases hs : splitChars sep cs with
      | nil => exact absurd hs (splitChars_ne_nil sep cs)
      | cons u us =>
        rw [hs] at ih
        simp only [splitChars, h, if_false, hs]
        cases us with
        | nil =>
          simp only [List.intercalate, List.intersperse, List.flatten, List.append_nil] at ih ⊢
          rw [ih]
        | cons v vs =>
          simp only [List.intercalate, List.intersperse, List.flatten, List.cons_append] at ih ⊢
          rw [ih]

theorem Split_ne_nil (s : String) (sep : Char) : Split s sep ≠ [] := by
  simp [Split, splitChars_ne_nil]

theorem Split_length (s : String) (sep : Char) :
    (Split s sep).length = s.data.count sep + 1 := by
  simp [Split, splitChars_length]

/-- A token without the separator is returned whole, as the only piece. -/
theorem Split_of_not_mem (s : String) (sep : Char) (h : sep ∉ s.data) :
    Split s sep = [s] := by
  simp [Split, splitChars_of_not_mem sep s.data h]

/-- A token with the separator has at least two pieces. -/
theorem Split_of_mem (s : String) (sep : Char) (h : sep ∈ s.data) :
    ∃ a b rest, Split s sep = a :: b :: rest := by
  have hl := Split_length s sep
  have hc : 0 < s.data.count sep := List.count_pos_iff.mpr h
  match hs : Split s sep with
  | [] => rw [hs] at hl; simp at hl
  | [_] => rw [hs] at hl; simp at hl; omega
  | a :: b :: rest => exact ⟨a, b, rest, rfl⟩

/-! ## Facts about the parsing loop -/

theorem parseLoop_ok (toks : List String) (cuts : List Cut)
    (h : ∀ t ∈ toks, '-' ∈ t.data) :
    parseLoop toks cuts = .ok (cuts ++ toks.map firstTwo) := by
  induction toks generalizing cuts with
  | nil => simp [parseLoop]
  | cons t ts ih =>
    obtain ⟨a, b, rest, hs⟩ := Split_of_mem t '-' (h t (List.mem_cons_self _ _))
    have ht : firstTwo t = { Start := a, End := b } := by simp [firstTwo, hs]
    rw [parseLoop, hs]
    simp only
    rw [ih _ (fun u hu => h u (List.mem_cons_of_mem _ hu))]
    simp [ht]

theorem parseLoop_crash (toks : List String) (cuts : List Cut)
    (h : ∃ t ∈ toks, '-' ∉ t.data) :
    parseLoop toks cuts = .error (Panic.indexOutOfRange 1 1) := by
  induction toks generalizing cuts with
  | nil => simp at h
  | cons t ts ih =>
    by_cases ht : '-' ∈ t.data
    · obtain ⟨a, b, rest, hs⟩ := Split_of_mem t '-' ht
      rw [parseLoop, hs]
      simp only
      apply ih
      obtain ⟨u, hu, hu2⟩ := h
      rcases List.mem_cons.mp hu with rfl | hu
      · exact absurd ht hu2
      · exact ⟨u, hu, hu2⟩
    · rw [parseLoop, Split_of_not_mem t '-' ht]

/-! ## Well-formed stamps -/

theorem intercalate_go_data (acc sep : String) (l : List String) :
    (String.intercalate.go acc sep l).data
      = acc.data ++ (l.map (fun a => sep.data ++ a.data)).flatten := by
  induction l generalizing acc with
  | nil => simp [String.intercalate.go]
  | cons a as ih => simp [String.intercalate.go, ih, String.data_append]

/-- Splitting the tokens joined by commas gives the tokens back, when there is one
token at least and no token holds a comma. -/
theorem Split_intercalate (tok : String) (toks : List String)
    (h : ∀ t ∈ tok :: toks, ',' ∉ t.data) :
    Split (",".intercalate (tok :: toks)) ',' = tok :: toks := by
  have key : ∀ (l : List String) (a : String), (∀ t ∈ a :: l, ',' ∉ t.data) →
      splitChars ',' (a.data ++ (l.map (fun b => ",".data ++ b.data)).flatten)
        = (a :: l).map String.data := by
    intro l
    induction l with
    | nil =>
      intro a ha
      simpa using splitChars_of_not_mem ',' a.data (ha a (List.mem_cons_self _ _))
    | cons b bs ih =>
      intro a ha
      have h1 : ',' ∉ a.data := ha a (List.mem_cons_self _ _)
      have h2 := ih b (fun t ht => ha t (List.mem_cons_of_mem _ ht))
      have e : a.data ++ ((b :: bs).map (fun b => ",".data ++ b.data)).flatten
          = a.data ++ ',' :: (b.data ++ (bs.map (fun b => ",".data ++ b.data)).flatten) := by
        simp
      rw [e, splitChars_append_sep ',' _ _ h1, h2]
      simp
  simp only [Split, String.intercalate, intercalate_go_data, key toks tok h]
  have hid : (String.mk ∘ String.data) = id := by funext x; rfl
  simp [hid]

theorem Split_range (a b : String) (ha : '-' ∉ a.data) (hb : '-' ∉ b.data) :
    Split (a ++ "-" ++ b) '-' = [a, b] := by
  have e : (a ++ "-" ++ b).data = a.data ++ '-' :: b.data := by simp [String.data_append]
  simp [Split, e, splitChars_append_sep '-' _ _ ha, splitChars_of_not_mem '-' _ hb]

/-- C1. For every list of one or more (start, end) pairs whose strings hold neither
a comma nor a hyphen, parsing the stamps string `"S1-E1,S2-E2,...,Sn-En"` succeeds and
gives exactly those pairs, in the same order and with repetitions kept. -/
theorem parseStamps_wellformed (pairs : List (String × String)) (hn : 1 ≤ pairs.length)
    (hclean : ∀ p ∈ pairs, ∀ c ∈ [ ',', '-'], c ∉ p.1.data ∧ c ∉ p.2.data) :
    parseStamps (stampsOf pairs)
      = .ok (pairs.map (fun p => { Start := p.1, End := p.2 })) := by
  have hsplit : ∀ p ∈ pairs, Split (p.1 ++ "-" ++ p.2) '-' = [p.1, p.2] := fun p hp =>
    Split_range p.1 p.2 (hclean p hp '-' (by simp)).1 (hclean p hp '-' (by simp)).2
  have hloop : ∀ (l : List (String × String)) (cuts : List Cut),
      (∀ p ∈ l, Split (p.1 ++ "-" ++ p.2) '-' = [p.1, p.2]) →
      parseLoop (l.map (fun p => p.1 ++ "-" ++ p.2)) cuts
        = .ok (cuts ++ l.map (fun p => { Start := p.1, End := p.2 })) := by
    intro l
    induction l with
    | nil => intro cuts _; simp [parseLoop]
    | cons p ps ih =>
      intro cuts hl
      rw [List.map_cons, parseLoop, hl p (List.mem_cons_self _ _)]
      simp only
      rw [ih _ (fun q hq => hl q (List.mem_cons_of_mem _ hq))]
      simp
  cases pairs with
  | nil => simp at hn
  | cons p ps =>
    have hcomma : ∀ t ∈ (p.1 ++ "-" ++ p.2) :: ps.map (fun q => q.1 ++ "-" ++ q.2),
        ',' ∉ t.data := by
      intro t ht
      have : ∃ q ∈ p :: ps, t = q.1 ++ "-" ++ q.2 := by
        rcases List.mem_cons.mp ht with rfl | ht
        · exact ⟨p, List.mem_cons_self _ _, rfl⟩
        · obtain ⟨q, hq, rfl⟩ := List.mem_map.mp ht
          exact ⟨q, List.mem_cons_of_mem _ hq, rfl⟩
      obtain ⟨q, hq, rfl⟩ := this
      have hq1 := hclean q hq ',' (by simp)
      simp [String.data_append, hq1.1, hq1.2]
    have := hloop (p :: ps) [] hsplit
    simp only [List.map_cons, List.nil_append] at this
    rw [parseStamps, stampsOf, List.map_cons, Split_intercalate _ _ hcomma]
    simpa using this

/-- C1, on the example of the system prompt. -/
theorem parseStamps_wellformed_witness :
    parseStamps "00:01:00-00:02:00,00:02:00-00:03:00"
      = .ok [{ Start := "00:01:00", End := "00:02:00" },
             { Start := "00:02:00", End := "00:03:00" }] :=
  parseStamps_wellformed [("00:01:00", "00:02:00"), ("00:02:00", "00:03:00")]
    (by decide) (by decide)


/-! ## What the parsing loop accepts -/

theorem parseStamps_of_all (s : String) (h : ∀ t ∈ Split s ',', '-' ∈ t.data) :
    parseStamps s = .ok ((Split s ',').map firstTwo) := by
  simpa [parseStamps] using parseLoop_ok (Split s ',') [] h

theorem parseStamps_of_some (s : String) (h : ∃ t ∈ Split s ',', '-' ∉ t.data) :
    parseStamps s = .error (Panic.indexOutOfRange 1 1) :=
  parseLoop_crash (Split s ',') [] h

/-- C10. Parsing a stamps string succeeds exactly when every comma-separated token
holds a hyphen, and otherwise panics on index 1 of a slice of length 1. When it
succeeds there is one pair per token, that is one more than there are commas, and the
pair of a token is made of its first two hyphen-separated pieces, later pieces being
dropped. The result is never the empty list, and the empty string panics. -/
theorem parseStamps_accepts (s : String) :
    ((∃ cuts, parseStamps s = .ok cuts) ↔ ∀ t ∈ Split s ',', '-' ∈ t.data) ∧
    (parseStamps s = .error (Panic.indexOutOfRange 1 1) ↔ ∃ t ∈ Split s ',', '-' ∉ t.data) ∧
    (∀ cuts, parseStamps s = .ok cuts →
      cuts.length = s.data.count ',' + 1 ∧ cuts = (Split s ',').map firstTwo ∧ cuts ≠ []) ∧
    parseStamps "" = .error (Panic.indexOutOfRange 1 1) := by
  have hsucc : ∀ cuts, parseStamps s = .ok cuts → ∀ t ∈ Split s ',', '-' ∈ t.data := by
    intro cuts hc
    by_contra hcon
    push_neg at hcon
    rw [parseStamps_of_some s hcon] at hc
    cases hc
  refine ⟨⟨fun ⟨cuts, hc⟩ => hsucc cuts hc, fun h => ⟨_, parseStamps_of_all s h⟩⟩,
    ⟨fun he => ?_, parseStamps_of_some s⟩, fun cuts hc => ?_, by rfl⟩
  · by_contra hcon
    push_neg at hcon
    rw [parseStamps_of_all s hcon] at he
    cases he
  · rw [parseStamps_of_all s (hsucc cuts hc)] at hc
    cases hc
    refine ⟨by simp [Split_length], rfl, ?_⟩
    simp [Split_ne_nil]

/-- C10 on the string `"a-b-c,d-e"`: two pairs, the piece `c` is dropped. -/
theorem parseStamps_accepts_witness :
    [({ Start := "a", End := "b" } : Cut), { Start := "d", End := "e" }].length
        = "a-b-c,d-e".data.count ',' + 1 ∧
      [({ Start := "a", End := "b" } : Cut), { Start := "d", End := "e" }]
        = (Split "a-b-c,d-e" ',').map firstTwo ∧
      [({ Start := "a", End := "b" } : Cut), { Start := "d", End := "e" }] ≠ [] :=
  (parseStamps_accepts "a-b-c,d-e").2.2.1 _ (by rfl)

/-- C8 as stated fails: the only token of `"00:01:00-00:02:00-00:03:00"` has two
hyphens, and the loop does not panic on it but yields a cut list. -/
theorem parseStamps_two_hyphens :
    (∃ t ∈ Split "00:01:00-00:02:00-00:03:00" ',',
        t.data.count '-' = 0 ∨ 1 < t.data.count '-') ∧
      parseStamps "00:01:00-00:02:00-00:03:00"
        = .ok [{ Start := "00:01:00", End := "00:02:00" }] :=
  ⟨⟨"00:01:00-00:02:00-00:03:00", by decide, by decide⟩, by rfl⟩

/-- C8, amended. For every stamps string in which some comma-separated token has no
hyphen, the loop reads index 1 of a slice of length 1 and panics instead of yielding a
cut list; the run that reaches the loop with such a string ends in that panic, after
the deferred calls, without one more run of the media tool. -/
theorem parseStamps_no_hyphen (s : String)
    (h : ∃ t ∈ Split s ',', t.data.count '-' = 0) :
    parseStamps s = .error (Panic.indexOutOfRange 1 1) ∧
    ∀ (w : World) (inputFile prompt text : String) (ds : List Deferred) (st : State),
      w.generate prompt = .ok text → w.unmarshal text = some s →
      promptStage w inputFile prompt ds st
        = (runDeferred ds { st with api := st.api ++ [ApiCall.generate] },
            Exit.panicked (Panic.indexOutOfRange 1 1)) := by
  have hp : parseStamps s = .error (Panic.indexOutOfRange 1 1) := by
    obtain ⟨t, ht, hc⟩ := h
    exact parseStamps_of_some s ⟨t, ht, List.count_eq_zero.mp hc⟩
  refine ⟨hp, ?_⟩
  intro w inputFile prompt text ds st hg hu
  simp [promptStage, hg, hu, hp]

/-- C8, amended, on the string `"00:01:00"`. -/
theorem parseStamps_no_hyphen_witness :
    parseStamps "00:01:00" = .error (Panic.indexOutOfRange 1 1) ∧
    (promptStage (exampleWorld "00:01:00" (fun _ => true) (fun _ => true)) "in.mp4" "keep it"
        [Deferred.deleteUpload, Deferred.removeAudio] (State.start ["audio.mp3"])).2
      = Exit.panicked (Panic.indexOutOfRange 1 1) :=
  ⟨(parseStamps_no_hyphen "00:01:00" ⟨"00:01:00", by decide, by decide⟩).1,
   congrArg Prod.snd
    ((parseStamps_no_hyphen "00:01:00" ⟨"00:01:00", by decide, by decide⟩).2
      (exampleWorld "00:01:00" (fun _ => true) (fun _ => true)) "in.mp4" "keep it" "response"
      [Deferred.deleteUpload, Deferred.removeAudio] (State.start ["audio.mp3"]) rfl rfl)⟩

/-! ## The names of the cuts are distinct -/

theorem decimalValue_digitChar : ∀ m, m < 10 → decimalValue [Nat.digitChar m] = m := by
  decide

theorem decimalValue_snoc (l : List Char) (c : Char) :
    decimalValue (l ++ [c]) = 10 * decimalValue l + (c.toNat - 48) := by
  simp [decimalValue, List.foldl_append]

theorem toDigitsCore_acc (fuel n : Nat) (ds : List Char) :
    Nat.toDigitsCore 10 fuel n ds = Nat.toDigitsCore 10 fuel n [] ++ ds := by
  induction fuel generalizing n ds with
  | zero => simp [Nat.toDigitsCore]
  | succ fuel ih =>
    simp only [Nat.toDigitsCore]
    split
    · simp
    · rw [ih (n / 10) (_ :: ds), ih (n / 10) [_]]
      simp

theorem decimalValue_toDigitsCore (fuel n : Nat) (h : n < fuel) :
    decimalValue (Nat.toDigitsCore 10 fuel n []) = n := by
  induction fuel generalizing n with
  | zero => omega
  | succ fuel ih =>
    simp only [Nat.toDigitsCore]
    split
    · rename_i h0
      have hn : n % 10 = n := by omega
      rw [hn]
      exact decimalValue_digitChar n (by omega)
    · rename_i h0
      rw [toDigitsCore_acc, decimalValue_snoc, ih (n / 10) (by omega)]
      have hd := decimalValue_digitChar (n % 10) (Nat.mod_lt _ (by decide))
      simp only [decimalValue, List.foldl_cons, List.foldl_nil] at hd
      omega

theorem repr_injective (i j : Nat) (h : Nat.repr i = Nat.repr j) : i = j := by
  have hd : Nat.toDigits 10 i = Nat.toDigits 10 j := congrArg String.data h
  have hi := decimalValue_toDigitsCore (i + 1) i (by omega)
  have hj := decimalValue_toDigitsCore (j + 1) j (by omega)
  simp only [Nat.toDigits] at hd
  rw [← hi, ← hj, hd]

/-- Different indices give different segment files. -/
theorem outputPath_injective (i j : Nat) (h : outputPath i = outputPath j) : i = j := by
  apply repr_injective
  have hd := congrArg String.data h
  simp only [outputPath, String.data_append] at hd
  have h2 := List.append_cancel_left (List.append_cancel_right hd)
  exact String.ext h2

/-! ## The shape of the cut loop -/

theorem String_join_cons (a : String) (l : List String) :
    String.join (a :: l) = a ++ String.join l := by
  apply String.ext
  simp [String.join_eq, String.data_append]

theorem manifestLines_succ (i m : Nat) :
    manifestLines i (m + 1) = manifestLine i ++ manifestLines (i + 1) m := by
  simp [manifestLines, List.range'_succ, String_join_cons]

theorem manifestLines_zero (i : Nat) : manifestLines i 0 = "" := by
  simp [manifestLines, String.join]

theorem String_append_empty (a : String) : a ++ "" = a := by
  apply String.ext
  simp [String.data_append]

theorem String_append_assoc (a b c : String) : a ++ b ++ c = a ++ (b ++ c) := by
  apply String.ext
  simp [String.data_append]

/-- The loop stops at some index `m`: it has then cut the ranges before `m` and written
their manifest lines, and either all ranges are done, or the tool failed on range `m`,
or the manifest write for range `m` failed. It calls neither the remote service nor
`time.Sleep`. -/
theorem cutLoop_shape (w : World) (inputFile : String) (cuts : List Cut) (i : Nat)
    (s : State) :
    ∃ m, m ≤ cuts.length ∧
      (cutLoop w inputFile cuts i s).1.manifest = s.manifest ++ manifestLines i m ∧
      (cutLoop w inputFile cuts i s).1.api = s.api ∧
      (cutLoop w inputFile cuts i s).1.slept = s.slept ∧
      ((m = cuts.length ∧ (cutLoop w inputFile cuts i s).2 = none ∧
          (cutLoop w inputFile cuts i s).1.tool = s.tool ++ okCalls inputFile cuts i) ∨
       (∃ c, cuts[m]? = some c ∧
          w.ffmpeg (s.tool.length + m) (cutCmd inputFile c (i + m)) = false ∧
          (cutLoop w inputFile cuts i s).2 = some (Fatal.cut (i + m)) ∧
          (cutLoop w inputFile cuts i s).1.tool
            = s.tool ++ okCalls inputFile (cuts.take m) i
                ++ [{ argv := cutCmd inputFile c (i + m), ok := false }]) ∨
       (m < cuts.length ∧ w.fprintf (i + m) (manifestLine (i + m)) = false ∧
          (cutLoop w inputFile cuts i s).2 = some Fatal.writeList ∧
          (cutLoop w inputFile cuts i s).1.tool
            = s.tool ++ okCalls inputFile (cuts.take (m + 1)) i)) := by
  induction cuts generalizing i s with
  | nil =>
    exact ⟨0, by simp, by simp [cutLoop, manifestLines_zero, String_append_empty],
      by simp [cutLoop], by simp [cutLoop], Or.inl (by simp [cutLoop, okCalls])⟩
  | cons c rest ih =>
    by_cases hok : w.ffmpeg s.tool.length (cutCmd inputFile c i) = true
    · by_cases hwr : w.fprintf i (manifestLine i) = true
      · have hstep : cutLoop w inputFile (c :: rest) i s
            = cutLoop w inputFile rest (i + 1)
                { s.ran (cutCmd inputFile c i) true (outputPath i) with
                  manifest := s.manifest ++ manifestLine i } := by
          simp [cutLoop, hok, hwr, State.ran]
        obtain ⟨m, hm, hman, hapi, hsl, hcase⟩ := ih (i + 1)
          { s.ran (cutCmd inputFile c i) true (outputPath i) with
            manifest := s.manifest ++ manifestLine i }
        rw [← hstep] at hman hapi hsl hcase
        refine ⟨m + 1, by simpa using hm, ?_, by simpa [State.ran] using hapi,
          by simpa [State.ran] using hsl, ?_⟩
        · rw [hman, manifestLines_succ, String_append_assoc]
        · have hidx : i + 1 + m = i + (m + 1) := by omega
          rcases hcase with ⟨h1, h2, h3⟩ | ⟨c1, h1, h2, h3, h4⟩ | ⟨h1, h2, h3, h4⟩
          · refine Or.inl ⟨by simp [h1], h2, ?_⟩
            rw [h3]
            simp [State.ran, okCalls]
          · refine Or.inr (Or.inl ⟨c1, by simpa using h1, ?_, ?_, ?_⟩)
            · have e : s.tool.length + (m + 1) = s.tool.length + 1 + m := by omega
              rw [e]
              simpa [State.ran, hidx] using h2
            · simpa [hidx] using h3
            · rw [h4]
              simp [State.ran, okCalls, hidx]
          · refine Or.inr (Or.inr ⟨by simpa using h1, by simpa [hidx] using h2, h3, ?_⟩)
            rw [h4]
            simp [State.ran, okCalls]
      · refine ⟨0, by simp, by simp [cutLoop, hok, hwr, State.ran, manifestLines_zero,
          String_append_empty], by simp [cutLoop, hok, hwr, State.ran],
          by simp [cutLoop, hok, hwr, State.ran], Or.inr (Or.inr ⟨by simp, ?_, ?_, ?_⟩)⟩
        · simpa using hwr
        · simp [cutLoop, hok, hwr]
        · simp [cutLoop, hok, hwr, State.ran, okCalls]
    · refine ⟨0, by simp, by simp [cutLoop, hok, State.ran, manifestLines_zero,
        String_append_empty], by simp [cutLoop, hok, State.ran],
        by simp [cutLoop, hok, State.ran], Or.inr (Or.inl ⟨c, by simp, ?_, ?_, ?_⟩)⟩
      · simpa using hok
      · simp [cutLoop, hok]
      · simp [cutLoop, hok, State.ran, okCalls]

theorem okCalls_eq_enum (inputFile : String) (cuts : List Cut) :
    okCalls inputFile cuts 0
      = cuts.enum.map (fun p =>
          { argv := ["ffmpeg", "-ss", p.2.Start, "-to", p.2.End, "-i", inputFile,
                     "-c", "copy", ".cuts/cut_" ++ Nat.repr p.1 ++ ".mp4"],
            ok := true }) := by
  simp [okCalls, List.enum, cutCmd, outputPath]

theorem manifestLine_eq (i : Nat) :
    manifestLine i = "file '.cuts/cut_" ++ Nat.repr i ++ ".mp4'\n" := by
  apply String.ext
  simp [manifestLine, outputPath, String.data_append]

theorem manifestLines_eq (n : Nat) :
    manifestLines 0 n
      = String.join ((List.range n).map
          (fun i => "file '.cuts/cut_" ++ Nat.repr i ++ ".mp4'\n")) := by
  have : manifestLine = fun i => "file '.cuts/cut_" ++ Nat.repr i ++ ".mp4'\n" :=
    funext manifestLine_eq
  simp [manifestLines, List.range_eq_range', this]

/-- C3. For every input path and every list of `n` ranges, if every run of the media
tool and every manifest write of the loop succeeds, the loop ends without an error
having run the tool exactly `n` times, the `i`-th run cutting from `Start` to `End`
of range `i` out of the input with stream copy into `.cuts/cut_<i>.mp4`, and it has
appended to the manifest exactly the `n` lines `file '.cuts/cut_<i>.mp4'`, each ended
by a newline, in the order of the ranges. -/
theorem cutLoop_all_succeed (w : World) (inputFile : String) (cuts : List Cut) (s : State)
    (htool : ∀ j (h : j < cuts.length),
      w.ffmpeg (s.tool.length + j) (cutCmd inputFile cuts[j] j) = true)
    (hwrite : ∀ j, j < cuts.length → w.fprintf j (manifestLine j) = true) :
    (cutLoop w inputFile cuts 0 s).2 = none ∧
    (cutLoop w inputFile cuts 0 s).1.tool
      = s.tool ++ cuts.enum.map (fun p =>
          { argv := ["ffmpeg", "-ss", p.2.Start, "-to", p.2.End, "-i", inputFile,
                     "-c", "copy", ".cuts/cut_" ++ Nat.repr p.1 ++ ".mp4"],
            ok := true }) ∧
    ((cutLoop w inputFile cuts 0 s).1.tool.drop s.tool.length).length = cuts.length ∧
    (cutLoop w inputFile cuts 0 s).1.manifest
      = s.manifest ++ String.join ((List.range cuts.length).map
          (fun i => "file '.cuts/cut_" ++ Nat.repr i ++ ".mp4'\n")) := by
  obtain ⟨m, hm, hman, _, _, hcase⟩ := cutLoop_shape w inputFile cuts 0 s
  rcases hcase with ⟨h1, h2, h3⟩ | ⟨c, h1, h2, _, _⟩ | ⟨h1, h2, _, _⟩
  · subst h1
    refine ⟨h2, ?_, ?_, ?_⟩
    · rw [h3, okCalls_eq_enum]
    · rw [h3, okCalls_eq_enum]
      simp
    · rw [hman, manifestLines_eq]
  · obtain ⟨hlt, hc⟩ := List.getElem?_eq_some_iff.mp h1
    have := htool m hlt
    rw [hc] at this
    simp only [Nat.zero_add] at h2
    rw [this] at h2
    cases h2
  · have := hwrite m h1
    simp only [Nat.zero_add] at h2
    rw [this] at h2
    cases h2

/-- C3 on two ranges, in a world where every call succeeds. -/
theorem cutLoop_all_succeed_witness :
    (cutLoop (exampleWorld "" (fun _ => true) (fun _ => true)) "in.mp4"
        [{ Start := "00:01:00", End := "00:02:00" }, { Start := "00:02:00", End := "00:03:00" }]
        0 (State.start [])).1.manifest
      = "file '.cuts/cut_0.mp4'\nfile '.cuts/cut_1.mp4'\n" :=
  (cutLoop_all_succeed (exampleWorld "" (fun _ => true) (fun _ => true)) "in.mp4"
    [{ Start := "00:01:00", End := "00:02:00" }, { Start := "00:02:00", End := "00:03:00" }]
    (State.start []) (fun _ _ => rfl) (fun _ _ => rfl)).2.2.2

/-! ## A failing cut -/

theorem runDeferred_tool (ds : List Deferred) (s : State) :
    (runDeferred ds s).tool = s.tool ∧ (runDeferred ds s).manifest = s.manifest := by
  induction ds generalizing s with
  | nil => simp [runDeferred]
  | cons d ds ih =>
    rw [runDeferred, (ih _).1, (ih _).2]
    cases d <;> simp [Deferred.run]

theorem okCalls_ok (inputFile : String) (cuts : List Cut) (i : Nat) :
    ∀ c ∈ okCalls inputFile cuts i, c.ok = true := by
  intro c hc
  obtain ⟨p, _, rfl⟩ := List.mem_map.mp hc
  rfl

theorem cutCmd_ne_concatCmd (inputFile : String) (c : Cut) (i : Nat) :
    cutCmd inputFile c i ≠ concatCmd := by
  intro h
  have h1 : (cutCmd inputFile c i)[1]? = concatCmd[1]? := by rw [h]
  simp [cutCmd, concatCmd] at h1

/-- C9. For every list of ranges and every index `k` in it, if the run of the media
tool for cut `k` fails, then the stage ends there with the fatal error of cut `k`: the
tool has been run for exactly the cuts `0..k` in order, all before `k` with success, the
manifest holds exactly the lines of the cuts `0..k-1` in order and none for cut `k`, and
neither a later cut nor the concatenation has been run. -/
theorem cutStage_failed_cut (w : World) (inputFile : String) (cuts : List Cut)
    (ds : List Deferred) (s : State) (k : Nat) (hk : k < cuts.length)
    (hfail : ({ argv := cutCmd inputFile cuts[k] k, ok := false } : ToolCall)
      ∈ (cutStage w inputFile cuts ds s).1.tool.drop s.tool.length) :
    (cutStage w inputFile cuts ds s).2 = Exit.fatal (Fatal.cut k) ∧
    (cutStage w inputFile cuts ds s).1.tool
      = s.tool
        ++ (cuts.take k).enum.map (fun p => { argv := cutCmd inputFile p.2 p.1, ok := true })
        ++ [{ argv := cutCmd inputFile cuts[k] k, ok := false }] ∧
    (cutStage w inputFile cuts ds s).1.manifest
      = String.join ((List.range k).map manifestLine) ∧
    (∀ c ∈ (cutStage w inputFile cuts ds s).1.tool.drop s.tool.length,
      c.argv ≠ concatCmd) := by
  by_cases hcr : w.create = true
  · obtain ⟨s2, hs2, htool2, hman2⟩ : ∃ s2 : State,
        s2 = (if w.mkdir then
                { s with fs := (s.fs.insert "cut_files.txt").insert ".cuts", manifest := "" }
              else { s with fs := s.fs.insert "cut_files.txt", manifest := "" })
        ∧ s2.tool = s.tool ∧ s2.manifest = "" := by
      refine ⟨_, rfl, ?_, ?_⟩ <;> split <;> rfl
    have hstage : cutStage w inputFile cuts ds s
        = match cutLoop w inputFile cuts 0 s2 with
          | (s3, some f) => (s3, Exit.fatal f)
          | (s3, none) =>
            if w.ffmpeg s3.tool.length concatCmd then
              (runDeferred (Deferred.removeCuts :: Deferred.removeList :: ds)
                (s3.ran concatCmd (w.ffmpeg s3.tool.length concatCmd) "output.mp4"),
                Exit.success)
            else (s3.ran concatCmd (w.ffmpeg s3.tool.length concatCmd) "output.mp4",
                Exit.fatal Fatal.concat) := by
      rw [hs2]
      simp only [cutStage, hcr, if_true]
    obtain ⟨m, hm, hman, _, _, hcase⟩ := cutLoop_shape w inputFile cuts 0 s2
    rw [hstage] at hfail ⊢
    rcases hres : cutLoop w inputFile cuts 0 s2 with ⟨s3, r⟩
    rw [hres] at hman hcase hfail
    simp only [htool2, hman2, Nat.zero_add] at hman hcase
    rcases hcase with ⟨_, h2, h3⟩ | ⟨c, h1, _, h3, h4⟩ | ⟨_, _, h3, h4⟩
    · exfalso
      subst h2
      have hnew : ∀ b, ((s3.ran concatCmd b "output.mp4").tool.drop s.tool.length)
          = okCalls inputFile cuts 0 ++ [{ argv := concatCmd, ok := b }] := by
        intro b
        simp [State.ran, h3]
      have hmem : ∃ b, ({ argv := cutCmd inputFile cuts[k] k, ok := false } : ToolCall)
          ∈ okCalls inputFile cuts 0 ++ [{ argv := concatCmd, ok := b }] := by
        cases hb : w.ffmpeg s3.tool.length concatCmd
        · simp only [hb, Bool.false_eq_true, if_false] at hfail
          exact ⟨false, by rw [← hnew false]; exact hfail⟩
        · simp only [hb, if_true, (runDeferred_tool _ _).1] at hfail
          exact ⟨true, by rw [← hnew true]; exact hfail⟩
      obtain ⟨b, hmem⟩ := hmem
      rcases List.mem_append.mp hmem with h | h
      · simpa using okCalls_ok _ _ _ _ h
      · simp only [List.mem_singleton, ToolCall.mk.injEq] at h
        exact cutCmd_ne_concatCmd _ _ _ h.1
    · subst h3
      rw [h4] at hfail
      simp only [List.append_assoc, List.drop_left] at hfail
      rcases List.mem_append.mp hfail with h | h
      · simpa using okCalls_ok _ _ _ _ h
      · simp only [List.mem_singleton, ToolCall.mk.injEq, and_true] at h
        have hp : outputPath k = outputPath m := by
          have := congrArg (fun l : List String => l.getLast?) h
          simpa [cutCmd] using this
        have hkm := outputPath_injective k m hp
        subst hkm
        obtain ⟨_, hc⟩ := List.getElem?_eq_some_iff.mp h1
        subst hc
        refine ⟨rfl, ?_, ?_, ?_⟩
        · simp only
          rw [h4]
          simp [okCalls, List.enum]
        · simp only
          rw [hman, manifestLines, ← List.range_eq_range']
          apply String.ext
          simp [String.data_append]
        · intro c1 hc1
          rw [h4] at hc1
          simp only [List.append_assoc, List.drop_left] at hc1
          rcases List.mem_append.mp hc1 with h | h
          · obtain ⟨p, _, rfl⟩ := List.mem_map.mp h
            exact cutCmd_ne_concatCmd _ _ _
          · simp only [List.mem_singleton] at h
            subst h
            exact cutCmd_ne_concatCmd _ _ _
    · exfalso
      subst h3
      rw [h4] at hfail
      simp only [List.drop_left] at hfail
      simpa using okCalls_ok _ _ _ _ hfail
  · exfalso
    simp [cutStage, hcr] at hfail

/-- C9 on three ranges, the tool failing on the second. -/
theorem cutStage_failed_cut_witness :
    (cutStage (exampleWorld "" (fun n => n ≠ 1) (fun _ => true)) "in.mp4"
        [{ Start := "00:01:00", End := "00:02:00" }, { Start := "00:02:00", End := "00:03:00" },
         { Start := "00:04:00", End := "00:05:00" }] [] (State.start [])).2
      = Exit.fatal (Fatal.cut 1) :=
  (cutStage_failed_cut (exampleWorld "" (fun n => n ≠ 1) (fun _ => true)) "in.mp4"
    [{ Start := "00:01:00", End := "00:02:00" }, { Start := "00:02:00", End := "00:03:00" },
     { Start := "00:04:00", End := "00:05:00" }] [] (State.start []) 1 (by decide)
    (by decide)).1

/-! ## The readiness loop -/

/-- While the answers are not active the loop goes on: with a budget of `fuel`
iterations it polls `fuel` times, sleeps five seconds before each poll, and is still
running. -/
theorem pollLoop_not_active (w : World) (fuel n : Nat) (state : FileState) (s : State)
    (hstate : state ≠ FileState.FileStateActive)
    (hget : ∀ m, ∃ st, w.get m = .ok st ∧ st ≠ FileState.FileStateActive) :
    pollLoop w fuel n state s
      = ({ s with slept := s.slept + 5 * fuel,
                  api := s.api ++ List.replicate fuel ApiCall.get },
          .error Exit.polling) := by
  induction fuel generalizing n state s with
  | zero => simp [pollLoop, hstate]
  | succ fuel ih =>
    obtain ⟨st, hst, hne⟩ := hget n
    rw [pollLoop]
    simp only [hstate, ne_eq, not_false_eq_true, or_true, if_true, hst]
    rw [ih (n + 1) st _ hne]
    simp [List.replicate_succ, Nat.mul_succ, Nat.add_assoc, Nat.add_comm 5]

/-- C6 as stated fails: in `stuckWorld` no poll answers active and none fails, and yet
no number of iterations brings the loop to an end, be it a timeout or any other. -/
theorem pollLoop_stuck :
    (∀ m, ∃ st, stuckWorld.get m = .ok st ∧ st ≠ FileState.FileStateActive) ∧
      ¬ ∃ fuel, (pollLoop stuckWorld fuel 0 FileState.FileStateProcessing (State.start [])).2
          ≠ .error Exit.polling := by
  have hget : ∀ m, ∃ st, stuckWorld.get m = .ok st ∧ st ≠ FileState.FileStateActive :=
    fun _ => ⟨FileState.FileStateProcessing, rfl, by decide⟩
  refine ⟨hget, ?_⟩
  rintro ⟨fuel, h⟩
  apply h
  rw [pollLoop_not_active stuckWorld fuel 0 _ _ (by decide) hget]

/-- C6, amended. For every sequence of polled states that never holds the active state,
with no transport error, the readiness loop never stops and raises no timeout: whatever
the number `fuel` of iterations allowed, it has then polled `fuel` times, slept five
seconds before each poll, and is still polling; and so is the run that reached it. -/
theorem pollLoop_never_stops (w : World) (state : FileState) (s : State)
    (hstate : state ≠ FileState.FileStateActive)
    (hget : ∀ m, ∃ st, w.get m = .ok st ∧ st ≠ FileState.FileStateActive) :
    (∀ fuel, pollLoop w fuel 0 state s
      = ({ s with slept := s.slept + 5 * fuel,
                  api := s.api ++ List.replicate fuel ApiCall.get },
          .error Exit.polling)) ∧
    (∀ fuel args, w.dotenv = none → 3 ≤ args.length →
      w.ffmpeg 0 (extractCmd (args.getD 1 "")) = true → w.newClient = none →
      w.upload = .ok state → (main fuel w args).2 = Exit.polling) := by
  refine ⟨fun fuel => pollLoop_not_active w fuel 0 state s hstate hget, ?_⟩
  intro fuel args hdot hargs hext hnew hup
  have hlen : ¬ args.length < 3 := by omega
  simp only [main, hdot, hlen, if_false, State.start, List.length_nil, hext, if_true, hnew,
    hup]
  rw [pollLoop_not_active w fuel 0 state _ hstate hget]

/-- C6, amended, in `stuckWorld` after a thousand polls. -/
theorem pollLoop_never_stops_witness :
    (main 1000 stuckWorld ["scriptcut", "in.mp4", "keep", "it"]).2 = Exit.polling :=
  (pollLoop_never_stops stuckWorld FileState.FileStateProcessing (State.start [])
    (by decide) (fun _ => ⟨FileState.FileStateProcessing, rfl, by decide⟩)).2
    1000 _ rfl (by decide) rfl rfl rfl

/-! ## The dotfile and the argument check -/

theorem cutLoop_exit (w : World) (inputFile : String) (cuts : List Cut) (i : Nat)
    (s : State) : (cutLoop w inputFile cuts i s).2 ≠ some Fatal.usage := by
  obtain ⟨m, _, _, _, _, hcase⟩ := cutLoop_shape w inputFile cuts i s
  rcases hcase with ⟨_, h, _⟩ | ⟨_, _, _, h, _⟩ | ⟨_, _, h, _⟩ <;> rw [h] <;> simp

theorem cutStage_exit (w : World) (inputFile : String) (cuts : List Cut)
    (ds : List Deferred) (s : State) :
    (cutStage w inputFile cuts ds s).2 ≠ Exit.fatal Fatal.usage := by
  have key : ∀ s2 : State,
      (match cutLoop w inputFile cuts 0 s2 with
        | (s3, some f) => (s3, Exit.fatal f)
        | (s3, none) =>
          if w.ffmpeg s3.tool.length concatCmd then
            (runDeferred (Deferred.removeCuts :: Deferred.removeList :: ds)
              (s3.ran concatCmd (w.ffmpeg s3.tool.length concatCmd) "output.mp4"),
              Exit.success)
          else (s3.ran concatCmd (w.ffmpeg s3.tool.length concatCmd) "output.mp4",
              Exit.fatal Fatal.concat) : State × Exit).2 ≠ Exit.fatal Fatal.usage := by
    intro s2
    have := cutLoop_exit w inputFile cuts 0 s2
    rcases hres : cutLoop w inputFile cuts 0 s2 with ⟨s3, r⟩
    rw [hres] at this
    cases r with
    | none =>
      simp only
      split <;> simp
    | some f => simpa using this
  unfold cutStage
  split
  · exact key _
  · simp

theorem pollLoop_exit (w : World) (fuel n : Nat) (state : FileState) (s : State) :
    (pollLoop w fuel n state s).2 ≠ .error (Exit.fatal Fatal.usage) := by
  induction fuel generalizing n state s with
  | zero =>
    rw [pollLoop]
    split <;> simp
  | succ fuel ih =>
    rw [pollLoop]
    split
    · simp only
      split
      · simp
      · exact ih _ _ _
    · simp

theorem promptStage_exit (w : World) (inputFile prompt : String) (ds : List Deferred)
    (s : State) : (promptStage w inputFile prompt ds s).2 ≠ Exit.fatal Fatal.usage := by
  unfold promptStage
  simp only
  split
  · simp
  · split
    · simp
    · split
      · simp
      · exact cutStage_exit _ _ _ _ _

/-- C5 as stated fails: with no positional argument at all, but a dotfile that does
not load, the run ends in the panic of line 24 and not in the usage error. -/
theorem main_no_args_no_dotfile :
    (main 0 { stuckWorld with dotenv := some "open .env: no such file or directory" }
        ["scriptcut"]).2
      = Exit.panicked (Panic.dotenv "open .env: no such file or directory") ∧
    (main 0 { stuckWorld with dotenv := some "open .env: no such file or directory" }
        ["scriptcut"]).2
      ≠ Exit.fatal Fatal.usage := by
  decide

/-- C5, amended. For every argument vector with fewer than three entries, the program
name counted, the run calls neither the media tool nor the remote service, and when
the dotfile has loaded it ends with the fatal usage error; for every argument vector
with three or more entries the usage error is not raised. -/
theorem main_usage (fuel : Nat) (w : World) (args : List String) :
    (args.length < 3 → w.dotenv = none →
      main fuel w args = (State.start w.disk, Exit.fatal Fatal.usage)) ∧
    (args.length < 3 → (main fuel w args).1.tool = [] ∧ (main fuel w args).1.api = []) ∧
    (3 ≤ args.length → (main fuel w args).2 ≠ Exit.fatal Fatal.usage) := by
  refine ⟨fun hlt hdot => by simp [main, hdot, hlt], fun hlt => ?_, fun hge => ?_⟩
  · cases hdot : w.dotenv <;> simp [main, hdot, hlt, State.start]
  · have hlen : ¬ args.length < 3 := by omega
    unfold main
    simp only [hlen, if_false]
    split
    · simp
    · split
      · split
        · simp
        · split
          · simp
          · split
            · rename_i s4 e heq
              intro he
              have he1 : e = Exit.fatal Fatal.usage := he
              subst he1
              exact pollLoop_exit _ _ _ _ _ (congrArg Prod.snd heq)
            · exact promptStage_exit _ _ _ _ _
      · simp

/-- C5, amended, on the bare program name and on a full command line. -/
theorem main_usage_witness :
    main 0 stuckWorld ["scriptcut"] = (State.start [], Exit.fatal Fatal.usage) ∧
    (main 0 stuckWorld ["scriptcut", "in.mp4"]).1.tool = [] ∧
    (main 0 stuckWorld ["scriptcut", "in.mp4", "keep"]).2 ≠ Exit.fatal Fatal.usage :=
  ⟨(main_usage 0 stuckWorld ["scriptcut"]).1 (by decide) rfl,
   ((main_usage 0 stuckWorld ["scriptcut", "in.mp4"]).2.1 (by decide)).1,
   (main_usage 0 stuckWorld ["scriptcut", "in.mp4", "keep"]).2.2 (by decide)⟩

/-- C7 as stated fails: with a dotfile that is not present the run stops in the panic
of line 24, where the same run with the dotfile loaded goes on past the argument
check. -/
theorem main_dotfile_missing :
    main 1 { exampleWorld "00:00:00-00:00:05" (fun _ => true) (fun _ => true) with
             dotenv := some "open .env: no such file or directory" }
        ["scriptcut", "in.mp4", "keep", "it"]
      = (State.start [], Exit.panicked (Panic.dotenv "open .env: no such file or directory")) ∧
    (main 1 (exampleWorld "00:00:00-00:00:05" (fun _ => true) (fun _ => true))
        ["scriptcut", "in.mp4", "keep", "it"]).2 = Exit.success := by
  decide

/-- C7, amended. The dotfile is required: when loading it fails, whatever the reason,
the run aborts at that point: it panics with the load error before the argument check,
having called neither the media tool nor the remote service. -/
theorem main_dotfile_required (fuel : Nat) (w : World) (args : List String) (err : String)
    (hload : w.dotenv = some err) :
    main fuel w args = (State.start w.disk, Exit.panicked (Panic.dotenv err)) := by
  simp [main, hload]

/-- C7, amended, on a bare command line in a directory without dotfile. -/
theorem main_dotfile_required_witness :
    main 0 { stuckWorld with dotenv := some "open .env: no such file or directory" } []
      = (State.start [], Exit.panicked (Panic.dotenv "open .env: no such file or directory")) :=
  main_dotfile_required 0 _ [] _ rfl

/-! ## Malformed tokens and cleanup, on worked runs -/

/-- C2 on the code. The stamps `"00:01:00"`, a token without hyphen, end the run in the
runtime panic `index out of range [1] with length 1`, not in an error of the script;
the stamps `"00:01:00-00:02:00-00:03:00"`, a token with two hyphens, raise no error at
all: the run cuts from `00:01:00` to `00:02:00`, concatenates and succeeds. -/
theorem main_malformed_token :
    (main 1 (exampleWorld "00:01:00" (fun _ => true) (fun _ => true))
        ["scriptcut", "in.mp4", "keep", "it"]).2
      = Exit.panicked (Panic.indexOutOfRange 1 1) ∧
    (main 1 (exampleWorld "00:01:00-00:02:00-00:03:00" (fun _ => true) (fun _ => true))
        ["scriptcut", "in.mp4", "keep", "it"]).2
      = Exit.success ∧
    (main 1 (exampleWorld "00:01:00-00:02:00-00:03:00" (fun _ => true) (fun _ => true))
        ["scriptcut", "in.mp4", "keep", "it"]).1.tool
      = [{ argv := ["ffmpeg", "-i", "in.mp4", "-q:a", "0", "-map", "a", "audio.mp3"],
           ok := true },
         { argv := ["ffmpeg", "-ss", "00:01:00", "-to", "00:02:00", "-i", "in.mp4",
                    "-c", "copy", ".cuts/cut_0.mp4"],
           ok := true },
         { argv := ["ffmpeg", "-f", "concat", "-safe", "0", "-i", "cut_files.txt",
                    "-c", "copy", "output.mp4"],
           ok := true }] := by
  decide

/-- C4 on the code. In an empty directory, with the model answering
`"00:00:00-00:00:05"`: when the cut fails, or the manifest write, or the concatenation,
the process ends in `log.Fatal*` and `audio.mp3`, `cut_files.txt` and `.cuts` are all
still on disk; when every step succeeds only `output.mp4` is left. -/
theorem main_fatal_leaves_files :
    main 1 (exampleWorld "00:00:00-00:00:05" (fun n => n ≠ 1) (fun _ => true))
        ["scriptcut", "in.mp4", "keep", "it"]
      = ({ fs := [".cuts", "cut_files.txt", "audio.mp3"],
           tool := [{ argv := extractCmd "in.mp4", ok := true },
                    { argv := cutCmd "in.mp4" { Start := "00:00:00", End := "00:00:05" } 0,
                      ok := false }],
           api := [ApiCall.newClient, ApiCall.upload, ApiCall.get, ApiCall.generate],
           manifest := "",
           slept := 5 },
         Exit.fatal (Fatal.cut 0)) ∧
    (main 1 (exampleWorld "00:00:00-00:00:05" (fun _ => true) (fun _ => false))
        ["scriptcut", "in.mp4", "keep", "it"]).2 = Exit.fatal Fatal.writeList ∧
    (main 1 (exampleWorld "00:00:00-00:00:05" (fun _ => true) (fun _ => false))
        ["scriptcut", "in.mp4", "keep", "it"]).1.fs
      = [".cuts/cut_0.mp4", ".cuts", "cut_files.txt", "audio.mp3"] ∧
    (main 1 (exampleWorld "00:00:00-00:00:05" (fun n => n ≠ 2) (fun _ => true))
        ["scriptcut", "in.mp4", "keep", "it"]).2 = Exit.fatal Fatal.concat ∧
    (main 1 (exampleWorld "00:00:00-00:00:05" (fun n => n ≠ 2) (fun _ => true))
        ["scriptcut", "in.mp4", "keep", "it"]).1.fs
      = [".cuts/cut_0.mp4", ".cuts", "cut_files.txt", "audio.mp3"] ∧
    (main 1 (exampleWorld "00:00:00-00:00:05" (fun _ => true) (fun _ => true))
        ["scriptcut", "in.mp4", "keep", "it"]).2 = Exit.success ∧
    (main 1 (exampleWorld "00:00:00-00:00:05" (fun _ => true) (fun _ => true))
        ["scriptcut", "in.mp4", "keep", "it"]).1.fs = ["output.mp4"] := by
  decide

/-! ## What is left on disk -/

theorem cutLoop_fs_mono (w : World) (inputFile : String) (cuts : List Cut) (i : Nat)
    (s : State) (p : String) (hp : p ∈ s.fs) : p ∈ (cutLoop w inputFile cuts i s).1.fs := by
  induction cuts generalizing i s with
  | nil => simpa [cutLoop] using hp
  | cons c rest ih =>
    have hran : ∀ b, p ∈ (s.ran (cutCmd inputFile c i) b (outputPath i)).fs := by
      intro b
      cases b <;> simp [State.ran, List.mem_insert_iff, hp]
    rw [cutLoop]
    split
    · split
      · exact ih _ _ (hran _)
      · exact hran _
    · exact hran _

/-- Every fatal end of the cut stage after the manifest was created leaves the audio
file, the manifest and the scratch directory on disk: `log.Fatal*` skips the deferred
removals. -/
theorem cutStage_fatal_keeps_files (w : World) (inputFile : String) (cuts : List Cut)
    (ds : List Deferred) (s : State) (f : Fatal)
    (hexit : (cutStage w inputFile cuts ds s).2 = Exit.fatal f) (hf : f ≠ Fatal.createList)
    (haudio : "audio.mp3" ∈ s.fs) (hdir : w.mkdir = true) :
    "audio.mp3" ∈ (cutStage w inputFile cuts ds s).1.fs ∧
    "cut_files.txt" ∈ (cutStage w inputFile cuts ds s).1.fs ∧
    ".cuts" ∈ (cutStage w inputFile cuts ds s).1.fs := by
  by_cases hcr : w.create = true
  · have hmono := cutLoop_fs_mono w inputFile cuts 0
      { s with fs := (s.fs.insert "cut_files.txt").insert ".cuts", manifest := "" }
    have h3 : ∀ p, p = "audio.mp3" ∨ p = "cut_files.txt" ∨ p = ".cuts" →
        p ∈ (cutLoop w inputFile cuts 0
          { s with fs := (s.fs.insert "cut_files.txt").insert ".cuts", manifest := "" }).1.fs := by
      intro p hp
      apply hmono
      rcases hp with rfl | rfl | rfl <;> simp [List.mem_insert_iff, haudio]
    simp only [cutStage, hcr, hdir, if_true] at hexit ⊢
    rcases hres : cutLoop w inputFile cuts 0
      { s with fs := (s.fs.insert "cut_files.txt").insert ".cuts", manifest := "" } with ⟨s3, r⟩
    rw [hres] at h3 hexit
    cases r with
    | some g => exact ⟨h3 _ (Or.inl rfl), h3 _ (Or.inr (Or.inl rfl)), h3 _ (Or.inr (Or.inr rfl))⟩
    | none =>
      simp only at hexit ⊢
      cases hb : w.ffmpeg s3.tool.length concatCmd
      · simp only [Bool.false_eq_true, if_false, State.ran]
        exact ⟨h3 _ (Or.inl rfl), h3 _ (Or.inr (Or.inl rfl)), h3 _ (Or.inr (Or.inr rfl))⟩
      · simp [hb] at hexit
  · simp [cutStage, hcr] at hexit
    exact absurd hexit.symm hf

theorem runDeferred_fs_sub (ds : List Deferred) (s : State) (p : String)
    (hp : p ∈ (runDeferred ds s).fs) : p ∈ s.fs := by
  induction ds generalizing s with
  | nil => simpa [runDeferred] using hp
  | cons d ds ih =>
    have := ih _ hp
    cases d <;> simp [Deferred.run, osRemove, osRemoveAll] at this <;> first | exact this | exact this.1

theorem runDeferred_removes (ds : List Deferred) (s : State) (d : Deferred) (p : String)
    (hd : d ∈ ds) (hrun : ∀ s1, p ∉ (d.run s1).fs) : p ∉ (runDeferred ds s).fs := by
  induction ds generalizing s with
  | nil => simp at hd
  | cons e ds ih =>
    rcases List.mem_cons.mp hd with rfl | hd
    · exact fun hp => hrun s (runDeferred_fs_sub ds _ p hp)
    · exact ih _ hd

theorem cutStage_success (w : World) (inputFile : String) (cuts : List Cut)
    (ds : List Deferred) (s : State)
    (hexit : (cutStage w inputFile cuts ds s).2 = Exit.success) :
    ∃ s4, (cutStage w inputFile cuts ds s).1
      = runDeferred (Deferred.removeCuts :: Deferred.removeList :: ds) s4 := by
  have key : ∀ s2 : State,
      (match cutLoop w inputFile cuts 0 s2 with
        | (s3, some f) => (s3, Exit.fatal f)
        | (s3, none) =>
          if w.ffmpeg s3.tool.length concatCmd then
            (runDeferred (Deferred.removeCuts :: Deferred.removeList :: ds)
              (s3.ran concatCmd (w.ffmpeg s3.tool.length concatCmd) "output.mp4"),
              Exit.success)
          else (s3.ran concatCmd (w.ffmpeg s3.tool.length concatCmd) "output.mp4",
              Exit.fatal Fatal.concat) : State × Exit).2 = Exit.success →
      ∃ s4, (match cutLoop w inputFile cuts 0 s2 with
        | (s3, some f) => (s3, Exit.fatal f)
        | (s3, none) =>
          if w.ffmpeg s3.tool.length concatCmd then
            (runDeferred (Deferred.removeCuts :: Deferred.removeList :: ds)
              (s3.ran concatCmd (w.ffmpeg s3.tool.length concatCmd) "output.mp4"),
              Exit.success)
          else (s3.ran concatCmd (w.ffmpeg s3.tool.length concatCmd) "output.mp4",
              Exit.fatal Fatal.concat) : State × Exit).1
        = runDeferred (Deferred.removeCuts :: Deferred.removeList :: ds) s4 := by
    intro s2
    rcases cutLoop w inputFile cuts 0 s2 with ⟨s3, r⟩
    cases r with
    | some f => simp
    | none =>
      simp only
      split
      · exact fun _ => ⟨_, rfl⟩
      · simp
  unfold cutStage at hexit ⊢
  split at hexit
  · rename_i hcr
    simp only [hcr, if_true]
    exact key _ hexit
  · simp at hexit

theorem promptStage_success (w : World) (inputFile prompt : String) (ds : List Deferred)
    (s : State) :
    (promptStage w inputFile prompt ds s).2 = Exit.success →
    ∃ s4, (promptStage w inputFile prompt ds s).1
      = runDeferred (Deferred.removeCuts :: Deferred.removeList :: ds) s4 := by
  unfold promptStage
  simp only
  split
  · simp
  · split
    · simp
    · split
      · simp
      · exact cutStage_success _ _ _ _ _

theorem pollLoop_no_success (w : World) (fuel n : Nat) (state : FileState) (s : State) :
    (pollLoop w fuel n state s).2 ≠ .error Exit.success := by
  induction fuel generalizing n state s with
  | zero =>
    rw [pollLoop]
    split <;> simp
  | succ fuel ih =>
    rw [pollLoop]
    split
    · simp only
      split
      · simp
      · exact ih _ _ _
    · simp

/-- A run that ends with success has run all four deferred calls: the audio file, the
manifest and the scratch directory with the segments are gone. -/
theorem main_success_cleans (fuel : Nat) (w : World) (args : List String)
    (hexit : (main fuel w args).2 = Exit.success) :
    "audio.mp3" ∉ (main fuel w args).1.fs ∧
    "cut_files.txt" ∉ (main fuel w args).1.fs ∧
    ".cuts" ∉ (main fuel w args).1.fs ∧
    ∀ i, outputPath i ∉ (main fuel w args).1.fs := by
  have hds : (main fuel w args).2 = Exit.success → ∃ s4, (main fuel w args).1
      = runDeferred [Deferred.removeCuts, Deferred.removeList, Deferred.deleteUpload,
          Deferred.removeAudio] s4 := by
    unfold main
    simp only
    split
    · simp
    · split
      · simp
      · split
        · split
          · simp
          · split
            · simp
            · split
              · rename_i s4 e h6
                intro he
                have he1 : e = Exit.success := he
                subst he1
                exact absurd (congrArg Prod.snd h6) (pollLoop_no_success _ _ _ _ _)
              · exact promptStage_success _ _ _ _ _
        · simp
  obtain ⟨s4, hs4⟩ := hds hexit
  rw [hs4]
  refine ⟨runDeferred_removes _ _ Deferred.removeAudio _ (by simp) ?_,
    runDeferred_removes _ _ Deferred.removeList _ (by simp) ?_,
    runDeferred_removes _ _ Deferred.removeCuts _ (by simp) ?_,
    fun i => runDeferred_removes _ _ Deferred.removeCuts _ (by simp) ?_⟩
  · intro s1
    simp [Deferred.run, osRemove]
  · intro s1
    simp [Deferred.run, osRemove]
  · intro s1
    simp [Deferred.run, osRemoveAll]
  · intro s1
    have hpre : (".cuts".data ++ [ '/']) <+: (outputPath i).data :=
      ⟨"cut_".data ++ ((Nat.repr i).data ++ ".mp4".data), by
        simp [outputPath, String.data_append]⟩
    intro hmem
    simp only [Deferred.run, osRemoveAll, List.mem_filter, decide_eq_true_eq] at hmem
    exact hmem.2.2 hpre

/-! ## When the failing cut is reached -/

/-- In terms of the answers of the world: when the tool and the manifest writer succeed
on the cuts before `k` and the tool fails on cut `k`, the loop does run the tool on
cut `k`, and the failed run is in its log. -/
theorem cutLoop_reaches_failing_cut (w : World) (inputFile : String) (cuts : List Cut)
    (i : Nat) (s : State) (k : Nat) (hk : k < cuts.length)
    (hok : ∀ j (h : j < cuts.length), j < k →
      w.ffmpeg (s.tool.length + j) (cutCmd inputFile cuts[j] (i + j)) = true ∧
      w.fprintf (i + j) (manifestLine (i + j)) = true)
    (hfail : w.ffmpeg (s.tool.length + k) (cutCmd inputFile cuts[k] (i + k)) = false) :
    ({ argv := cutCmd inputFile cuts[k] (i + k), ok := false } : ToolCall)
      ∈ (cutLoop w inputFile cuts i s).1.tool.drop s.tool.length := by
  induction cuts generalizing i s k with
  | nil => simp at hk
  | cons c rest ih =>
    cases k with
    | zero =>
      have h0 : w.ffmpeg s.tool.length (cutCmd inputFile c i) = false := by simpa using hfail
      simp [cutLoop, h0, State.ran]
    | succ k =>
      have h0 := hok 0 (by simp) (by omega)
      simp only [List.getElem_cons_zero, Nat.add_zero] at h0
      have hstep : cutLoop w inputFile (c :: rest) i s
          = cutLoop w inputFile rest (i + 1)
              { s.ran (cutCmd inputFile c i) true (outputPath i) with
                manifest := s.manifest ++ manifestLine i } := by
        simp [cutLoop, h0.1, h0.2, State.ran]
      have hk1 : k < rest.length := by simpa using hk
      have hidx : ∀ j, i + 1 + j = i + (j + 1) := fun j => by omega
      have hlen : ∀ j, s.tool.length + 1 + j = s.tool.length + (j + 1) := fun j => by omega
      have := ih (i + 1)
        { s.ran (cutCmd inputFile c i) true (outputPath i) with
          manifest := s.manifest ++ manifestLine i } k hk1
        (by
          intro j hj hjk
          have := hok (j + 1) (by simpa using hj) (by omega)
          simpa [State.ran, hidx, hlen] using this)
        (by simpa [State.ran, hidx, hlen] using hfail)
      rw [← hstep] at this
      have hdrop : (cutLoop w inputFile (c :: rest) i s).1.tool.drop (s.tool.length + 1)
          = ((cutLoop w inputFile (c :: rest) i s).1.tool.drop s.tool.length).drop 1 := by
        rw [List.drop_drop, Nat.add_comm]
      simp only [State.ran, List.length_append, List.length_singleton, hidx] at this
      rw [hdrop] at this
      simpa using List.mem_of_mem_drop this

/-- The same for the whole stage: when the manifest can be created, the tool and the
manifest writer succeed on the cuts before `k` and the tool fails on cut `k`, the
failed run of cut `k` is in the log of the stage. -/
theorem cutStage_reaches_failing_cut (w : World) (inputFile : String) (cuts : List Cut)
    (ds : List Deferred) (s : State) (k : Nat) (hk : k < cuts.length)
    (hcreate : w.create = true)
    (hok : ∀ j (h : j < cuts.length), j < k →
      w.ffmpeg (s.tool.length + j) (cutCmd inputFile cuts[j] j) = true ∧
      w.fprintf j (manifestLine j) = true)
    (hfail : w.ffmpeg (s.tool.length + k) (cutCmd inputFile cuts[k] k) = false) :
    ({ argv := cutCmd inputFile cuts[k] k, ok := false } : ToolCall)
      ∈ (cutStage w inputFile cuts ds s).1.tool.drop s.tool.length := by
  have key : ∀ s2 : State, s2.tool = s.tool →
      ({ argv := cutCmd inputFile cuts[k] k, ok := false } : ToolCall)
        ∈ (match cutLoop w inputFile cuts 0 s2 with
            | (s3, some f) => (s3, Exit.fatal f)
            | (s3, none) =>
              if w.ffmpeg s3.tool.length concatCmd then
                (runDeferred (Deferred.removeCuts :: Deferred.removeList :: ds)
                  (s3.ran concatCmd (w.ffmpeg s3.tool.length concatCmd) "output.mp4"),
                  Exit.success)
              else (s3.ran concatCmd (w.ffmpeg s3.tool.length concatCmd) "output.mp4",
                  Exit.fatal Fatal.concat) : State × Exit).1.tool.drop s.tool.length := by
    intro s2 hs2
    have hmem := cutLoop_reaches_failing_cut w inputFile cuts 0 s2 k hk
      (by simpa [hs2] using hok) (by simpa [hs2] using hfail)
    rw [hs2] at hmem
    simp only [Nat.zero_add] at hmem
    have hle := List.length_pos_of_mem hmem
    simp only [List.length_drop] at hle
    rcases hres : cutLoop w inputFile cuts 0 s2 with ⟨s3, r⟩
    rw [hres] at hmem hle
    have hmem3 : ({ argv := cutCmd inputFile cuts[k] k, ok := false } : ToolCall)
        ∈ s3.tool.drop s.tool.length := hmem
    have hle3 : 0 < s3.tool.length - s.tool.length := hle
    cases r with
    | some f => exact hmem3
    | none =>
      have hran : ∀ b, ({ argv := cutCmd inputFile cuts[k] k, ok := false } : ToolCall)
          ∈ (s3.ran concatCmd b "output.mp4").tool.drop s.tool.length := by
        intro b
        simp only [State.ran]
        rw [List.drop_append_of_le_length (by omega)]
        exact List.mem_append_left _ hmem3
      simp only
      split
      · rw [(runDeferred_tool _ _).1]
        exact hran _
      · exact hran _
  unfold cutStage
  simp only [hcreate, if_true]
  apply key
  split <;> rfl

end Scriptcut
